import Mathlib

/-!
# Verification of the VNI-FGSM attack step engine (`torchattack/vnifgsm.py`)

Shallow embedding of `VNIFGSM.forward`. A batch tensor of shape (N, C, H, W)
is modelled as `List (List ℚ)`: one inner list per batch element holding its
C·H·W entries in row-major order (the code only ever uses the C, H, W axes
jointly: elementwise ops and a mean over dims (1,2,3) with keepdim).
Floating point is abstracted to ℚ; in ℚ, division by zero yields 0 where the
float code would produce NaN/Inf.

The model, the normalizing transform, the cross-entropy loss value and
reverse-mode autograd are external collaborators: they appear as opaque
function fields of `Env`.  `Env.grad f p` models "build the graph of the
scalar `f` at leaf `p`, call `.backward()`, and read `p.grad`": it returns
`none` when autograd leaves the gradient unset.  `Env.uniform lo hi k` models
the k-th draw of `torch.randn_like(x).uniform_(lo, hi)`; draws are counted by
a counter threaded through the state.  Python exceptions are modelled by
`Except String`.
-/

namespace VNIFGSM

/-- A batch tensor: one row per batch element, each row the flattened C·H·W
block. -/
abbrev Tensor := List (List ℚ)

/-- The per-row lengths: batch size and flattened size of each element.
Two tensors broadcast/align in the code exactly when their `dims` agree. -/
def dims (t : Tensor) : List ℕ := t.map List.length

/-- Model of `torch.zeros_like` (lines 78–80, 112). -/
def zeros_like (t : Tensor) : Tensor := t.map fun r => r.map fun _ => (0 : ℚ)

/-- Elementwise binary operation on same-shaped tensors. -/
def tmap2 (f : ℚ → ℚ → ℚ) (a b : Tensor) : Tensor :=
  List.zipWith (List.zipWith f) a b

/-- Elementwise tensor addition. -/
def tadd (a b : Tensor) : Tensor := tmap2 (· + ·) a b

/-- Elementwise tensor subtraction. -/
def tsub (a b : Tensor) : Tensor := tmap2 (· - ·) a b

/-- Scalar · tensor. -/
def tsmul (c : ℚ) (t : Tensor) : Tensor := t.map fun r => r.map fun a => c * a

/-- Tensor / scalar (`gv_grad / self.n`, line 130). -/
def tdivs (t : Tensor) (c : ℚ) : Tensor := t.map fun r => r.map fun a => a / c

/-- Scalar sign, as `torch.sign` / `Tensor.sign()`. -/
def qsign (a : ℚ) : ℚ := if a < 0 then -1 else if a = 0 then 0 else 1

/-- Model of `Tensor.sign()` (line 133). -/
def tsign (t : Tensor) : Tensor := t.map fun r => r.map qsign

/-- Scalar clamp, as `torch.clamp(·, lo, hi)`. -/
def qclamp (lo hi a : ℚ) : ℚ := min hi (max lo a)

/-- Elementwise `torch.clamp(t, lo, hi)` (lines 134–135). -/
def tclamp (lo hi : ℚ) (t : Tensor) : Tensor := t.map fun r => r.map (qclamp lo hi)

/-- Mean of absolute values of one batch element's entries:
`torch.mean(torch.abs(w), dim=(1,2,3), keepdim=True)` produces one such
scalar per batch element (lines 107–109). -/
def rowMeanAbs (r : List ℚ) : ℚ := (r.map fun a => |a|).sum / r.length

/-- Model of `w / torch.mean(torch.abs(w), dim=(1,2,3), keepdim=True)`: each batch
element's entries divided by that element's mean absolute value, the
`keepdim=True` broadcast (lines 107–109). -/
def divByRowMean (t : Tensor) : Tensor :=
  t.map fun r => r.map fun a => a / rowMeanAbs r

/-- Entry of a tensor at batch index `i`, flat position `j` (0 outside). -/
def entry (t : Tensor) (i j : ℕ) : ℚ := (t.getD i []).getD j 0

/-- Every entry lies in `[lo, hi]`. -/
def inRange (lo hi : ℚ) (t : Tensor) : Prop :=
  ∀ r ∈ t, ∀ a ∈ r, lo ≤ a ∧ a ≤ hi

instance (lo hi : ℚ) (t : Tensor) : Decidable (inRange lo hi t) := by
  unfold inRange; infer_instance

/-- The attack's configuration fields, as stored by `__init__`
(lines 55–64). `alpha = none` models the Python `None` default. -/
structure Config where
  eps : ℚ
  steps : ℕ
  alpha : Option ℚ
  decay : ℚ
  n : ℕ
  beta : ℚ
  clip_min : ℚ
  clip_max : ℚ
  targeted : Bool
deriving DecidableEq, Repr

/-- External collaborators of the step engine.

* `model p` — the logits `self.model(p)` (opaque).
* `transf p` — `self.transform(p)` (opaque; identity when absent).
* `lossfn o y` — the scalar value of `nn.CrossEntropyLoss()(o, y)` (opaque).
* `grad f p` — autograd: gradient of the scalar-valued `f` at leaf `p`
  after `.backward()`; `none` when backpropagation leaves the leaf's
  `.grad` unset.
* `uniform lo hi k` — the k-th random tensor
  `torch.randn_like(x).uniform_(lo, hi)`. -/
structure Env where
  model : Tensor → Tensor
  transf : Tensor → Tensor
  lossfn : Tensor → List ℕ → ℚ
  grad : (Tensor → ℚ) → Tensor → Option Tensor
  uniform : ℚ → ℚ → ℕ → Tensor

/-- The loss backpropagated in both the outer and the inner loop, as a
function of the forwarded point: cross-entropy of the model's output on the
transformed point against the labels, negated when targeted
(lines 93–97 and 119–123). -/
def lookLoss (env : Env) (cfg : Config) (y : List ℕ) (p : Tensor) : ℚ :=
  let l := env.lossfn (env.model (env.transf p)) y
  if cfg.targeted then -l else l

/-- Mutable state carried across outer iterations: momentum `g`, gradient
variance `v`, perturbation `delta` (lines 78–80), plus the count of random
draws consumed so far (positioning the RNG stream). -/
structure St where
  g : Tensor
  v : Tensor
  delta : Tensor
  rng : ℕ
deriving DecidableEq, Repr

/-- The inner variance-sampling loop (lines 112–127), `m` repetitions left,
`acc` the running `gv_grad`, `k` the RNG counter.  Each repetition adds
uniform noise in `[-eps·beta, eps·beta]` to the current detached `delta`,
backpropagates the loss at `x + neighbors` to the neighbors leaf, and adds
the resulting gradient to `acc`.  If that gradient is unavailable,
`gv_grad += neighbors.grad` adds `None` to a tensor, raising a `TypeError`
(line 127). -/
def innerLoop (cfg : Config) (env : Env) (x : Tensor) (y : List ℕ)
    (delta : Tensor) : ℕ → Tensor → ℕ → Except String (Tensor × ℕ)
  | 0, acc, k => .ok (acc, k)
  | m + 1, acc, k =>
    let neighbors :=
      tadd delta (env.uniform (-(cfg.eps * cfg.beta)) (cfg.eps * cfg.beta) k)
    match env.grad (lookLoss env cfg y) (tadd x neighbors) with
    | none => .error "TypeError: unsupported operand type(s) for +="
    | some ng => innerLoop cfg env x y delta m (tadd acc ng) (k + 1)

/-- One outer iteration of the `for _ in range(self.steps)` loop
(lines 87–139), with `alpha` already resolved.

* `nes = self.alpha * self.decay * g`, `x_nes = x + delta + nes`
  (lines 89–90);
* backpropagate the (targeted-negated) cross-entropy loss at `x_nes` to
  `delta`; `delta` enters `x_nes` additively, so its gradient is the loss
  gradient at the point `x_nes` (lines 93–100);
* `if delta.grad is None: continue` — state unchanged (lines 102–103);
* momentum update (lines 106–109);
* inner variance-sampling loop and `v = gv_grad / self.n - delta_grad`
  (lines 112–130);
* `delta` update: add `alpha * g.sign()`, clamp to `[-eps, eps]`, clamp
  `x + delta` to `[clip_min, clip_max]` and subtract `x` (lines 133–135). -/
def vniStep (cfg : Config) (env : Env) (alpha : ℚ) (x : Tensor) (y : List ℕ)
    (s : St) : Except String St :=
  let nes := tsmul (alpha * cfg.decay) s.g
  let x_nes := tadd (tadd x s.delta) nes
  match env.grad (lookLoss env cfg y) x_nes with
  | none => .ok s
  | some delta_grad =>
    let g1 := tadd (tsmul cfg.decay s.g) (divByRowMean (tadd delta_grad s.v))
    match innerLoop cfg env x y s.delta cfg.n (zeros_like x) s.rng with
    | .error e => .error e
    | .ok (gv_grad, k1) =>
      let v1 := tsub (tdivs gv_grad (cfg.n : ℚ)) delta_grad
      let d1 := tadd s.delta (tsmul alpha (tsign g1))
      let d2 := tclamp (-cfg.eps) cfg.eps d1
      let d3 := tsub (tclamp cfg.clip_min cfg.clip_max (tadd x d2)) x
      .ok ⟨g1, v1, d3, k1⟩

/-- Runs `k` outer iterations starting from `s` (the `for _ in range(self.steps)`
loop, line 87): a counted loop with no early exit other than a raised
exception. -/
def runSteps (cfg : Config) (env : Env) (alpha : ℚ) (x : Tensor) (y : List ℕ)
    (s : St) : ℕ → Except String St
  | 0 => .ok s
  | k + 1 =>
    match vniStep cfg env alpha x y s with
    | .error e => .error e
    | .ok s1 => runSteps cfg env alpha x y s1 k

/-- Lines 83–84: `if self.alpha is None: self.alpha = self.eps / self.steps`.
In Python, `self.eps / self.steps` with `steps = 0` raises
`ZeroDivisionError` before the assignment. -/
def resolveAlpha (cfg : Config) : Except String ℚ :=
  match cfg.alpha with
  | some a => .ok a
  | none =>
    if cfg.steps = 0 then .error "ZeroDivisionError: float division by zero"
    else .ok (cfg.eps / (cfg.steps : ℚ))

/-- Initial state: `g`, `v`, `delta` all `torch.zeros_like(x)`
(lines 78–80), no random draws consumed. -/
def initSt (x : Tensor) : St := ⟨zeros_like x, zeros_like x, zeros_like x, 0⟩

/-- Model of `VNIFGSM.forward(x, y)` (lines 67–141): resolve `alpha` (mutating the
stored configuration when it was `None`), run `steps` outer iterations, and
return `x + delta` together with the configuration as it stands after the
call (the second component captures the `self.alpha` field mutation). -/
def forward (cfg : Config) (env : Env) (x : Tensor) (y : List ℕ) :
    Except String (Tensor × Config) :=
  match resolveAlpha cfg with
  | .error e => .error e
  | .ok a =>
    match runSteps cfg env a x y (initSt x) cfg.steps with
    | .error e => .error e
    | .ok s => .ok (tadd x s.delta, { cfg with alpha := some a })

/-- The invariant maintained across outer iterations: momentum, variance and
perturbation keep the batch's shape; the perturbation stays in the L∞ ball
of radius `eps`; the perturbed batch stays in `[clip_min, clip_max]`. -/
def Inv (cfg : Config) (x : Tensor) (s : St) : Prop :=
  dims s.g = dims x ∧ dims s.v = dims x ∧ dims s.delta = dims x ∧
  inRange (-cfg.eps) cfg.eps s.delta ∧
  inRange cfg.clip_min cfg.clip_max (tadd x s.delta)

/-! ### Concrete fixtures used to instantiate the theorems -/

/-- A concrete batch: one image with a single zero entry. -/
def xW : Tensor := [[0]]

/-- A concrete label vector. -/
def yW : List ℕ := [0]

/-- A small concrete configuration with an explicit `alpha`. -/
def cfgW : Config :=
  { eps := 0, steps := 1, alpha := some 0, decay := 0, n := 1,
    beta := 0, clip_min := 0, clip_max := 0, targeted := false }

/-- Collaborators whose autograd always yields the zero gradient for the
single-entry batch. -/
def envW : Env :=
  { model := id, transf := id, lossfn := fun _ _ => 0,
    grad := fun _ _ => some [[0]], uniform := fun _ _ _ => [[0]] }

/-- Collaborators whose autograd never routes gradient to the leaf. -/
def envN : Env :=
  { model := id, transf := id, lossfn := fun _ _ => 0,
    grad := fun _ _ => none, uniform := fun _ _ _ => [[1]] }

/-- Collaborators whose autograd yields a gradient only at the unperturbed
point `[[0]]` (so the look-ahead pass succeeds while the displaced
neighbor pass does not). -/
def envP : Env :=
  { model := id, transf := id, lossfn := fun _ _ => 0,
    grad := fun _ p => if p = [[(0 : ℚ)]] then some [[0]] else none,
    uniform := fun _ _ _ => [[1]] }

end VNIFGSM

deriving instance DecidableEq for Except

namespace VNIFGSM

/-! ## Helper lemmas: shapes and entries -/

lemma dims_rowmap (F : List ℚ → List ℚ) (h : ∀ r, (F r).length = r.length)
    (t : Tensor) : dims (t.map F) = dims t := by
  simp only [dims, List.map_map]
  exact List.map_congr_left fun r _ => h r

lemma dims_zeros_like (t : Tensor) : dims (zeros_like t) = dims t :=
  dims_rowmap _ (fun r => List.length_map r _) t

lemma dims_tsmul (c : ℚ) (t : Tensor) : dims (tsmul c t) = dims t :=
  dims_rowmap _ (fun r => List.length_map r _) t

lemma dims_tdivs (t : Tensor) (c : ℚ) : dims (tdivs t c) = dims t :=
  dims_rowmap _ (fun r => List.length_map r _) t

lemma dims_tsign (t : Tensor) : dims (tsign t) = dims t :=
  dims_rowmap _ (fun r => List.length_map r _) t

lemma dims_tclamp (lo hi : ℚ) (t : Tensor) : dims (tclamp lo hi t) = dims t :=
  dims_rowmap _ (fun r => List.length_map r _) t

lemma dims_divByRowMean (t : Tensor) : dims (divByRowMean t) = dims t :=
  dims_rowmap _ (fun r => List.length_map r _) t

lemma dims_tmap2 (f : ℚ → ℚ → ℚ) :
    ∀ (a b : Tensor), dims a = dims b → dims (tmap2 f a b) = dims a := by
  intro a
  induction a with
  | nil => intro b _; rfl
  | cons r a ih =>
    intro b h
    cases b with
    | nil => simp [dims] at h
    | cons s b =>
      simp only [dims, List.map_cons, List.cons.injEq] at h
      simp only [dims, tmap2, List.zipWith_cons_cons, List.map_cons,
        List.length_zipWith, h.1, min_self, List.cons.injEq, true_and]
      exact ih b h.2

lemma dims_tadd (a b : Tensor) (h : dims a = dims b) : dims (tadd a b) = dims a :=
  dims_tmap2 _ a b h

lemma dims_tsub (a b : Tensor) (h : dims a = dims b) : dims (tsub a b) = dims a :=
  dims_tmap2 _ a b h

lemma length_dims (t : Tensor) : (dims t).length = t.length := by
  simp [dims]

lemma length_eq_of_dims {a b : Tensor} (h : dims a = dims b) :
    a.length = b.length := by
  have := congrArg List.length h
  simpa [dims] using this

lemma getD_zipWith (f : ℚ → ℚ → ℚ) :
    ∀ (r s : List ℚ) (j : ℕ), r.length = s.length → j < r.length →
      (List.zipWith f r s).getD j 0 = f (r.getD j 0) (s.getD j 0) := by
  intro r
  induction r with
  | nil => intro s j _ hj; simp at hj
  | cons a r ih =>
    intro s j h hj
    cases s with
    | nil => simp at h
    | cons b s =>
      cases j with
      | zero => simp
      | succ j =>
        simp only [List.zipWith_cons_cons, List.getD_cons_succ]
        exact ih s j (by simpa using h) (by simpa using hj)

lemma getD_map_lt (g : ℚ → ℚ) :
    ∀ (r : List ℚ) (j : ℕ), j < r.length → (r.map g).getD j 0 = g (r.getD j 0) := by
  intro r
  induction r with
  | nil => intro j hj; simp at hj
  | cons a r ih =>
    intro j hj
    cases j with
    | zero => simp
    | succ j =>
      simp only [List.map_cons, List.getD_cons_succ]
      exact ih j (by simpa using hj)

lemma getD_row_map (F : List ℚ → List ℚ) :
    ∀ (t : Tensor) (i : ℕ), i < t.length → (t.map F).getD i [] = F (t.getD i []) := by
  intro t
  induction t with
  | nil => intro i hi; simp at hi
  | cons r t ih =>
    intro i hi
    cases i with
    | zero => simp
    | succ i =>
      simp only [List.map_cons, List.getD_cons_succ]
      exact ih i (by simpa using hi)

lemma getD_row_zip (f : ℚ → ℚ → ℚ) :
    ∀ (a b : Tensor) (i : ℕ), i < a.length → i < b.length →
      (tmap2 f a b).getD i [] = List.zipWith f (a.getD i []) (b.getD i []) := by
  intro a
  induction a with
  | nil => intro b i hi; simp at hi
  | cons r a ih =>
    intro b i hi hbi
    cases b with
    | nil => simp at hbi
    | cons s b =>
      cases i with
      | zero => simp [tmap2]
      | succ i =>
        simp only [tmap2, List.zipWith_cons_cons, List.getD_cons_succ]
        exact ih b i (by simpa using hi) (by simpa using hbi)

lemma getD_dims : ∀ (t : Tensor) (i : ℕ), (dims t).getD i 0 = (t.getD i []).length := by
  intro t
  induction t with
  | nil => intro i; simp [dims]
  | cons r t ih =>
    intro i
    cases i with
    | zero => simp [dims]
    | succ i => simpa [dims] using ih i

lemma rowlen_eq_of_dims {a b : Tensor} (h : dims a = dims b) (i : ℕ) :
    (a.getD i []).length = (b.getD i []).length := by
  rw [← getD_dims, ← getD_dims, h]

lemma entry_tmap2 (f : ℚ → ℚ → ℚ) (a b : Tensor) (i j : ℕ)
    (h : dims a = dims b) (hi : i < a.length) (hj : j < (a.getD i []).length) :
    entry (tmap2 f a b) i j = f (entry a i j) (entry b i j) := by
  have hbi : i < b.length := length_eq_of_dims h ▸ hi
  unfold entry
  rw [getD_row_zip f a b i hi hbi]
  exact getD_zipWith f _ _ j (rowlen_eq_of_dims h i) hj

lemma entry_rowmap (F : List ℚ → List ℚ) (g : ℚ → ℚ)
    (hF : ∀ r, F r = r.map g) (t : Tensor) (i j : ℕ)
    (hi : i < t.length) (hj : j < (t.getD i []).length) :
    entry (t.map F) i j = g (entry t i j) := by
  unfold entry
  rw [getD_row_map F t i hi, hF]
  exact getD_map_lt g _ j hj

lemma getD_mem_of_lt {α : Type} (l : List α) (d : α) (i : ℕ) (hi : i < l.length) :
    l.getD i d ∈ l := by
  rw [List.getD_eq_getElem l d hi]
  exact List.getElem_mem hi

/-! ## Helper lemmas: clamping and ranges -/

lemma qclamp_range (lo hi a : ℚ) (h : lo ≤ hi) :
    lo ≤ qclamp lo hi a ∧ qclamp lo hi a ≤ hi := by
  unfold qclamp
  constructor
  · exact le_min h (le_max_left lo a)
  · exact min_le_left hi _

lemma qclamp_abs_le (e a : ℚ) (he : 0 ≤ e) : |qclamp (-e) e a| ≤ e := by
  rw [abs_le]
  have := qclamp_range (-e) e a (by linarith)
  exact ⟨this.1, this.2⟩

lemma qclamp_close (lo hi c b : ℚ) (h1 : lo ≤ c) (h2 : c ≤ hi) :
    |qclamp lo hi (c + b) - c| ≤ |b| := by
  unfold qclamp
  rw [abs_le]
  constructor
  · have hb : -|b| ≤ b := neg_abs_le b
    have h3 : c - |b| ≤ hi := by
      have := abs_nonneg b; linarith
    have h4 : c - |b| ≤ max lo (c + b) :=
      le_trans (by linarith) (le_max_right lo (c + b))
    have := le_min h3 h4
    linarith
  · have hb : b ≤ |b| := le_abs_self b
    have hb0 : 0 ≤ |b| := abs_nonneg b
    have h3 : max lo (c + b) ≤ c + |b| := max_le (by linarith) (by linarith)
    have := le_trans (min_le_right hi (max lo (c + b))) h3
    linarith

lemma inRange_tclamp (lo hi : ℚ) (t : Tensor) (h : lo ≤ hi) :
    inRange lo hi (tclamp lo hi t) := by
  intro r hr a ha
  unfold tclamp at hr
  rcases List.mem_map.mp hr with ⟨r0, _, rfl⟩
  rcases List.mem_map.mp ha with ⟨a0, _, rfl⟩
  exact qclamp_range lo hi a0 h

lemma inRange_entry {lo hi : ℚ} {t : Tensor} (h : inRange lo hi t)
    (i j : ℕ) (hi' : i < t.length) (hj : j < (t.getD i []).length) :
    lo ≤ entry t i j ∧ entry t i j ≤ hi :=
  h _ (getD_mem_of_lt t [] i hi') _ (getD_mem_of_lt _ 0 j hj)

/-! ## Helper lemmas: algebraic cancellations -/

lemma zipWith_add_zeros : ∀ (r : List ℚ),
    List.zipWith (· + ·) r (r.map fun _ => (0 : ℚ)) = r := by
  intro r
  induction r with
  | nil => rfl
  | cons a r ih =>
    simp only [List.map_cons, List.zipWith_cons_cons, add_zero,
      List.cons.injEq, true_and]
    exact ih

/-- Adding the all-zeros tensor is the identity: `x + 0 = x`. -/
lemma tadd_zeros_like (x : Tensor) : tadd x (zeros_like x) = x := by
  unfold tadd tmap2 zeros_like
  induction x with
  | nil => rfl
  | cons r x ih =>
    simp only [List.map_cons, List.zipWith_cons_cons, zipWith_add_zeros r,
      List.cons.injEq, true_and]
    exact ih

lemma zipWith_add_sub_cancel : ∀ (r c : List ℚ), r.length = c.length →
    List.zipWith (· + ·) r (List.zipWith (· - ·) c r) = c := by
  intro r
  induction r with
  | nil => intro c h; cases c with
    | nil => rfl
    | cons b c => simp at h
  | cons a r ih =>
    intro c h
    cases c with
    | nil => simp at h
    | cons b c => simp [ih c (by simpa using h)]

/-- Cancellation `x + (c - x) = c` when shapes agree (the line-135 pattern
`torch.clamp(x + delta, ...) - x` later re-added to `x`). -/
lemma tadd_tsub_cancel (x c : Tensor) (h : dims c = dims x) :
    tadd x (tsub c x) = c := by
  unfold tadd tsub tmap2
  induction x generalizing c with
  | nil =>
    cases c with
    | nil => rfl
    | cons b c => simp [dims] at h
  | cons r x ih =>
    cases c with
    | nil => simp [dims] at h
    | cons s c =>
      simp only [dims, List.map_cons, List.cons.injEq] at h
      simp [zipWith_add_sub_cancel r s h.1.symm, ih c h.2]

/-! ## Helper lemmas: the inner variance-sampling loop -/

/-- Characterization of a successful inner loop: it performs exactly `m`
repetitions, the i-th querying the gradient at `x + (delta + uniform(..., k+i))`
with the sampling interval `[-eps·beta, eps·beta]`, and folds the gradients
into the accumulator in order; exactly `m` random draws are consumed. -/
lemma innerLoop_ok (cfg : Config) (env : Env) (x : Tensor) (y : List ℕ)
    (d : Tensor) :
    ∀ (m : ℕ) (acc : Tensor) (k : ℕ) (res : Tensor) (k1 : ℕ),
      innerLoop cfg env x y d m acc k = .ok (res, k1) →
      ∃ gl : List Tensor, gl.length = m ∧
        (∀ i (hi : i < gl.length),
          env.grad (lookLoss env cfg y)
            (tadd x (tadd d (env.uniform (-(cfg.eps * cfg.beta))
              (cfg.eps * cfg.beta) (k + i)))) = some (gl.get ⟨i, hi⟩)) ∧
        res = gl.foldl tadd acc ∧ k1 = k + m := by
  intro m
  induction m with
  | zero =>
    intro acc k res k1 h
    refine ⟨[], rfl, ?_, ?_, ?_⟩
    · intro i hi; simp at hi
    · unfold innerLoop at h
      injection h with h'
      injection h' with h1 h2
      exact h1.symm
    · unfold innerLoop at h
      injection h with h'
      injection h' with h1 h2
      omega
  | succ m ih =>
    intro acc k res k1 h
    unfold innerLoop at h
    cases hg : env.grad (lookLoss env cfg y)
        (tadd x (tadd d (env.uniform (-(cfg.eps * cfg.beta))
          (cfg.eps * cfg.beta) k))) with
    | none =>
      simp only [hg] at h
      exact absurd h (by simp)
    | some ng =>
      simp only [hg] at h
      obtain ⟨gl, hlen, hgrads, hres, hk⟩ := ih (tadd acc ng) (k + 1) res k1 h
      refine ⟨ng :: gl, by simp [hlen], ?_, ?_, by omega⟩
      · intro i hi
        cases i with
        | zero => simpa using hg
        | succ i =>
          have hi' : i < gl.length := by simpa using hi
          have := hgrads i hi'
          have harg : k + 1 + i = k + (i + 1) := by omega
          rw [harg] at this
          simpa using this
      · simpa using hres

/-- The inner loop preserves the batch shape of the accumulator whenever the
gradient oracle returns tensors shaped like `x`. -/
lemma innerLoop_dims (cfg : Config) (env : Env) (x : Tensor) (y : List ℕ)
    (d : Tensor)
    (hgrad : ∀ f p dg, env.grad f p = some dg → dims dg = dims x) :
    ∀ (m : ℕ) (acc : Tensor) (k : ℕ) (res : Tensor) (k1 : ℕ),
      innerLoop cfg env x y d m acc k = .ok (res, k1) →
      dims acc = dims x → dims res = dims x := by
  intro m
  induction m with
  | zero =>
    intro acc k res k1 h hacc
    unfold innerLoop at h
    injection h with h'
    injection h' with h1 h2
    exact h1 ▸ hacc
  | succ m ih =>
    intro acc k res k1 h hacc
    unfold innerLoop at h
    cases hg : env.grad (lookLoss env cfg y)
        (tadd x (tadd d (env.uniform (-(cfg.eps * cfg.beta))
          (cfg.eps * cfg.beta) k))) with
    | none =>
      simp only [hg] at h
      exact absurd h (by simp)
    | some ng =>
      simp only [hg] at h
      exact ih _ _ _ _ h (by rw [dims_tadd acc ng (hacc.trans (hgrad _ _ _ hg).symm), hacc])

/-! ## Helper lemmas: one outer iteration -/

/-- Model of `if delta.grad is None: continue` (lines 102–103): an iteration whose
backpropagation leaves `delta.grad` unset changes nothing and raises
nothing. -/
lemma vniStep_gradNone {cfg : Config} {env : Env} {alpha : ℚ} {x : Tensor}
    {y : List ℕ} {s : St}
    (h : env.grad (lookLoss env cfg y)
      (tadd (tadd x s.delta) (tsmul (alpha * cfg.decay) s.g)) = none) :
    vniStep cfg env alpha x y s = .ok s := by
  unfold vniStep
  simp only [h]

/-- Unfolding of one iteration when the look-ahead gradient is available. -/
lemma vniStep_eq_of_grad {cfg : Config} {env : Env} {alpha : ℚ} {x : Tensor}
    {y : List ℕ} {s : St} {dg : Tensor}
    (hdg : env.grad (lookLoss env cfg y)
      (tadd (tadd x s.delta) (tsmul (alpha * cfg.decay) s.g)) = some dg) :
    vniStep cfg env alpha x y s =
      match innerLoop cfg env x y s.delta cfg.n (zeros_like x) s.rng with
      | .error e => .error e
      | .ok (gv, k1) =>
        .ok ⟨tadd (tsmul cfg.decay s.g) (divByRowMean (tadd dg s.v)),
             tsub (tdivs gv (cfg.n : ℚ)) dg,
             tsub (tclamp cfg.clip_min cfg.clip_max (tadd x
               (tclamp (-cfg.eps) cfg.eps (tadd s.delta (tsmul alpha
                 (tsign (tadd (tsmul cfg.decay s.g)
                   (divByRowMean (tadd dg s.v))))))))) x,
             k1⟩ := by
  unfold vniStep
  simp only [hdg]

/-- Inversion of a successful iteration whose look-ahead gradient is `dg`:
the inner loop succeeded, and each component of the new state is the coded
update expression (note that the δ update reads the sign of the *updated*
momentum `s'.g`). -/
lemma vniStep_ok_inv {cfg : Config} {env : Env} {alpha : ℚ} {x : Tensor}
    {y : List ℕ} {s s' : St} {dg : Tensor}
    (hdg : env.grad (lookLoss env cfg y)
      (tadd (tadd x s.delta) (tsmul (alpha * cfg.decay) s.g)) = some dg)
    (hs : vniStep cfg env alpha x y s = .ok s') :
    ∃ gv k1,
      innerLoop cfg env x y s.delta cfg.n (zeros_like x) s.rng = .ok (gv, k1) ∧
      s'.g = tadd (tsmul cfg.decay s.g) (divByRowMean (tadd dg s.v)) ∧
      s'.v = tsub (tdivs gv (cfg.n : ℚ)) dg ∧
      s'.delta = tsub (tclamp cfg.clip_min cfg.clip_max (tadd x
        (tclamp (-cfg.eps) cfg.eps (tadd s.delta
          (tsmul alpha (tsign s'.g)))))) x ∧
      s'.rng = k1 := by
  rw [vniStep_eq_of_grad hdg] at hs
  cases hin : innerLoop cfg env x y s.delta cfg.n (zeros_like x) s.rng with
  | error e =>
    simp only [hin] at hs
    exact absurd hs (by simp)
  | ok p =>
    obtain ⟨gv, k1⟩ := p
    simp only [hin, Except.ok.injEq] at hs
    subst hs
    exact ⟨gv, k1, rfl, rfl, rfl, rfl, rfl⟩

/-! ## The loop invariant (budget, range and shape) -/

lemma lt_len {a b : Tensor} (h : dims a = dims b) {i : ℕ} :
    i < a.length → i < b.length := fun hi => length_eq_of_dims h ▸ hi

lemma lt_row {a b : Tensor} (h : dims a = dims b) {i j : ℕ} :
    j < (a.getD i []).length → j < (b.getD i []).length :=
  fun hj => rowlen_eq_of_dims h i ▸ hj

lemma inRange_of_entry {lo hi : ℚ} {t : Tensor}
    (h : ∀ i j, i < t.length → j < (t.getD i []).length →
      lo ≤ entry t i j ∧ entry t i j ≤ hi) : inRange lo hi t := by
  intro r hr a ha
  rcases List.mem_iff_get.mp hr with ⟨⟨i, hi'⟩, rfl⟩
  rcases List.mem_iff_get.mp ha with ⟨⟨j, hj⟩, rfl⟩
  have hgi : t.getD i [] = t.get ⟨i, hi'⟩ := by
    rw [List.getD_eq_getElem t [] hi']; rfl
  have hj' : j < (t.getD i []).length := by rw [hgi]; exact hj
  have := h i j hi' hj'
  have hgj : entry t i j = (t.get ⟨i, hi'⟩).get ⟨j, hj⟩ := by
    unfold entry
    rw [hgi, List.getD_eq_getElem _ 0 (hgi ▸ hj')]
    rfl
  rw [← hgj]
  exact this

lemma inRange_zeros_like (e : ℚ) (he : 0 ≤ e) (x : Tensor) :
    inRange (-e) e (zeros_like x) := by
  intro r hr a ha
  unfold zeros_like at hr
  rcases List.mem_map.mp hr with ⟨r0, _, rfl⟩
  rcases List.mem_map.mp ha with ⟨a0, _, rfl⟩
  constructor <;> linarith

/-- The δ-update of lines 133–135: starting from any tensor `d2` already
inside the L∞ ball (the result of the line-134 clamp), the line-135 clamp of
`x + d2` to `[lo, hi]` followed by subtracting `x` keeps the perturbation
inside the ball, keeps the perturbed image in range, and preserves shape. -/
lemma delta_update_bounds (e lo hi : ℚ) (x d2 : Tensor)
    (hclip : lo ≤ hi) (hx : inRange lo hi x)
    (hd2 : inRange (-e) e d2) (hdims : dims d2 = dims x) :
    inRange (-e) e (tsub (tclamp lo hi (tadd x d2)) x) ∧
    inRange lo hi (tadd x (tsub (tclamp lo hi (tadd x d2)) x)) ∧
    dims (tsub (tclamp lo hi (tadd x d2)) x) = dims x := by
  have hxd2 : dims (tadd x d2) = dims x := dims_tadd x d2 hdims.symm
  have hC : dims (tclamp lo hi (tadd x d2)) = dims x :=
    (dims_tclamp lo hi (tadd x d2)).trans hxd2
  have hD : dims (tsub (tclamp lo hi (tadd x d2)) x) = dims x :=
    (dims_tsub _ x hC).trans hC
  refine ⟨?_, ?_, hD⟩
  · apply inRange_of_entry
    intro i j hi' hj'
    have hix : i < x.length := lt_len hD hi'
    have hjx : j < (x.getD i []).length := lt_row hD hj'
    have hiC : i < (tclamp lo hi (tadd x d2)).length := lt_len hC.symm hix
    have hjC : j < ((tclamp lo hi (tadd x d2)).getD i []).length :=
      lt_row hC.symm hjx
    have hiA : i < (tadd x d2).length := lt_len hxd2.symm hix
    have hjA : j < ((tadd x d2).getD i []).length := lt_row hxd2.symm hjx
    have hid2 : i < d2.length := lt_len hdims.symm hix
    have hjd2 : j < (d2.getD i []).length := lt_row hdims.symm hjx
    have e1 : entry (tsub (tclamp lo hi (tadd x d2)) x) i j =
        entry (tclamp lo hi (tadd x d2)) i j - entry x i j :=
      entry_tmap2 _ _ x i j hC hiC hjC
    have e2 : entry (tclamp lo hi (tadd x d2)) i j =
        qclamp lo hi (entry (tadd x d2) i j) :=
      entry_rowmap _ (qclamp lo hi) (fun _ => rfl) (tadd x d2) i j hiA hjA
    have e3 : entry (tadd x d2) i j = entry x i j + entry d2 i j :=
      entry_tmap2 _ x d2 i j hdims.symm hix hjx
    have hxe := inRange_entry hx i j hix hjx
    have hde := inRange_entry hd2 i j hid2 hjd2
    have habs : |entry d2 i j| ≤ e := abs_le.mpr ⟨hde.1, hde.2⟩
    have := qclamp_close lo hi (entry x i j) (entry d2 i j) hxe.1 hxe.2
    rw [e1, e2, e3]
    exact abs_le.mp (le_trans this habs)
  · rw [tadd_tsub_cancel x _ hC]
    exact inRange_tclamp lo hi _ hclip

lemma Inv_init (cfg : Config) (x : Tensor) (heps : 0 ≤ cfg.eps)
    (hx : inRange cfg.clip_min cfg.clip_max x) : Inv cfg x (initSt x) := by
  refine ⟨dims_zeros_like x, dims_zeros_like x, dims_zeros_like x,
    inRange_zeros_like _ heps x, ?_⟩
  rw [show (initSt x).delta = zeros_like x from rfl, tadd_zeros_like x]
  exact hx

lemma Inv_step (cfg : Config) (env : Env) (alpha : ℚ) (x : Tensor) (y : List ℕ)
    (heps : 0 ≤ cfg.eps) (hclip : cfg.clip_min ≤ cfg.clip_max)
    (hx : inRange cfg.clip_min cfg.clip_max x)
    (hgrad : ∀ f p dg, env.grad f p = some dg → dims dg = dims x)
    {s s' : St} (hs : vniStep cfg env alpha x y s = .ok s')
    (hInv : Inv cfg x s) : Inv cfg x s' := by
  obtain ⟨hg, hv, hd, hbound, hrange⟩ := hInv
  cases hdg : env.grad (lookLoss env cfg y)
      (tadd (tadd x s.delta) (tsmul (alpha * cfg.decay) s.g)) with
  | none =>
    rw [vniStep_gradNone hdg] at hs
    injection hs with h
    subst h
    exact ⟨hg, hv, hd, hbound, hrange⟩
  | some dg =>
    obtain ⟨gv, k1, hin, hg', hv', hdelta', _⟩ := vniStep_ok_inv hdg hs
    have hdgx : dims dg = dims x := hgrad _ _ _ hdg
    have h1 : dims (tadd dg s.v) = dims x :=
      (dims_tadd dg s.v (hdgx.trans hv.symm)).trans hdgx
    have h2 : dims (divByRowMean (tadd dg s.v)) = dims x :=
      (dims_divByRowMean _).trans h1
    have h3 : dims (tsmul cfg.decay s.g) = dims x := (dims_tsmul _ _).trans hg
    have hsg : dims s'.g = dims x := by
      rw [hg']
      exact (dims_tadd _ _ (h3.trans h2.symm)).trans h3
    have hgv : dims gv = dims x :=
      innerLoop_dims cfg env x y s.delta hgrad cfg.n (zeros_like x) s.rng gv k1
        hin (dims_zeros_like x)
    have hsv : dims s'.v = dims x := by
      rw [hv']
      exact (dims_tsub _ dg (((dims_tdivs gv _).trans hgv).trans hdgx.symm)).trans
        ((dims_tdivs gv _).trans hgv)
    have hd1 : dims (tadd s.delta (tsmul alpha (tsign s'.g))) = dims x := by
      have : dims (tsmul alpha (tsign s'.g)) = dims x :=
        ((dims_tsmul _ _).trans (dims_tsign _)).trans hsg
      exact (dims_tadd _ _ (hd.trans this.symm)).trans hd
    have hd2dims : dims (tclamp (-cfg.eps) cfg.eps
        (tadd s.delta (tsmul alpha (tsign s'.g)))) = dims x :=
      (dims_tclamp _ _ _).trans hd1
    have hd2range : inRange (-cfg.eps) cfg.eps
        (tclamp (-cfg.eps) cfg.eps (tadd s.delta (tsmul alpha (tsign s'.g)))) :=
      inRange_tclamp _ _ _ (by linarith)
    have hmain := delta_update_bounds cfg.eps cfg.clip_min cfg.clip_max x
      (tclamp (-cfg.eps) cfg.eps (tadd s.delta (tsmul alpha (tsign s'.g))))
      hclip hx hd2range hd2dims
    refine ⟨hsg, hsv, ?_, ?_, ?_⟩
    · rw [hdelta']; exact hmain.2.2
    · rw [hdelta']; exact hmain.1
    · rw [hdelta']; exact hmain.2.1

/-- The invariant holds after every iteration of the loop. -/
lemma Inv_runSteps (cfg : Config) (env : Env) (alpha : ℚ) (x : Tensor)
    (y : List ℕ) (heps : 0 ≤ cfg.eps) (hclip : cfg.clip_min ≤ cfg.clip_max)
    (hx : inRange cfg.clip_min cfg.clip_max x)
    (hgrad : ∀ f p dg, env.grad f p = some dg → dims dg = dims x) :
    ∀ (k : ℕ) (s s' : St), runSteps cfg env alpha x y s k = .ok s' →
      Inv cfg x s → Inv cfg x s' := by
  intro k
  induction k with
  | zero =>
    intro s s' h hInv
    unfold runSteps at h
    injection h with h
    subst h
    exact hInv
  | succ k ih =>
    intro s s' h hInv
    unfold runSteps at h
    cases hstep : vniStep cfg env alpha x y s with
    | error e =>
      simp only [hstep] at h
      exact absurd h (by simp)
    | ok s1 =>
      simp only [hstep] at h
      exact ih s1 s' h (Inv_step cfg env alpha x y heps hclip hx hgrad hstep hInv)

/-- Inversion of a successful `forward` call: `alpha` resolved to some `a`,
`steps` iterations ran to completion in some final state `s`, the output is
`x + delta`, and the returned configuration stores the resolved `alpha`. -/
lemma forward_ok_inv {cfg : Config} {env : Env} {x : Tensor} {y : List ℕ}
    {out : Tensor} {cfg1 : Config} (h : forward cfg env x y = .ok (out, cfg1)) :
    ∃ a s, resolveAlpha cfg = .ok a ∧
      runSteps cfg env a x y (initSt x) cfg.steps = .ok s ∧
      out = tadd x s.delta ∧ cfg1 = { cfg with alpha := some a } := by
  unfold forward at h
  cases ha : resolveAlpha cfg with
  | error e =>
    simp only [ha] at h
    exact absurd h (by simp)
  | ok a =>
    simp only [ha] at h
    cases hr : runSteps cfg env a x y (initSt x) cfg.steps with
    | error e =>
      simp only [hr] at h
      exact absurd h (by simp)
    | ok s =>
      simp only [hr, Except.ok.injEq, Prod.mk.injEq] at h
      exact ⟨a, s, rfl, hr, h.1.symm, h.2.symm⟩

lemma entry_tadd (a b : Tensor) (i j : ℕ) (h : dims a = dims b)
    (hi : i < a.length) (hj : j < (a.getD i []).length) :
    entry (tadd a b) i j = entry a i j + entry b i j :=
  entry_tmap2 _ a b i j h hi hj

lemma entry_tsub (a b : Tensor) (i j : ℕ) (h : dims a = dims b)
    (hi : i < a.length) (hj : j < (a.getD i []).length) :
    entry (tsub a b) i j = entry a i j - entry b i j :=
  entry_tmap2 _ a b i j h hi hj

lemma entry_tsmul (c : ℚ) (t : Tensor) (i j : ℕ) (hi : i < t.length)
    (hj : j < (t.getD i []).length) :
    entry (tsmul c t) i j = c * entry t i j :=
  entry_rowmap _ (fun a => c * a) (fun _ => rfl) t i j hi hj

lemma entry_divByRowMean (t : Tensor) (i j : ℕ) (hi : i < t.length)
    (hj : j < (t.getD i []).length) :
    entry (divByRowMean t) i j = entry t i j / rowMeanAbs (t.getD i []) := by
  unfold entry divByRowMean
  rw [getD_row_map _ t i hi]
  exact getD_map_lt _ _ j hj

/-- Elementwise form of the line 107–109 momentum update: entry (i, j) of
the new momentum is `decay · g[i][j]` plus `(dg + v)[i][j]` divided by the
mean of the absolute values of batch element i's entries of `dg + v` — one
normalizer per batch element, independent of `j`. -/
lemma momentum_entry {cfg : Config} {env : Env} {alpha : ℚ} {x : Tensor}
    {y : List ℕ} {s s' : St} {dg : Tensor}
    (hg : env.grad (lookLoss env cfg y)
      (tadd (tadd x s.delta) (tsmul (alpha * cfg.decay) s.g)) = some dg)
    (hs : vniStep cfg env alpha x y s = .ok s')
    (hdv : dims dg = dims s.v) (hgd : dims s.g = dims dg)
    (i j : ℕ) (hi' : i < s.g.length) (hj' : j < ((s.g).getD i []).length) :
    entry s'.g i j = cfg.decay * entry s.g i j +
      entry (tadd dg s.v) i j / rowMeanAbs ((tadd dg s.v).getD i []) := by
  obtain ⟨gv, k1, hin, hg', _⟩ := vniStep_ok_inv hg hs
  have hwd : dims (tadd dg s.v) = dims s.g := (dims_tadd dg s.v hdv).trans hgd.symm
  have hsmul : dims s.g = dims (tsmul cfg.decay s.g) := (dims_tsmul _ _).symm
  have hdivd : dims (divByRowMean (tadd dg s.v)) = dims s.g :=
    (dims_divByRowMean _).trans hwd
  have hmm : dims (tsmul cfg.decay s.g) = dims (divByRowMean (tadd dg s.v)) :=
    hsmul.symm.trans hdivd.symm
  have hiw : i < (tadd dg s.v).length := lt_len hwd.symm hi'
  have hjw : j < ((tadd dg s.v).getD i []).length := lt_row hwd.symm hj'
  rw [hg',
    entry_tadd _ _ i j hmm (lt_len hsmul hi') (lt_row hsmul hj'),
    entry_tsmul cfg.decay s.g i j hi' hj',
    entry_divByRowMean (tadd dg s.v) i j hiw hjw]

/-! ## The claims -/

/-- C1: for every batch `x` all of whose elements lie in
`[clip_min, clip_max]`, every label vector, and every configuration with
`eps ≥ 0` and `clip_min ≤ clip_max` (with autograd returning batch-shaped
gradients), the tensor returned by `forward` has exactly the shape of `x`,
every element differs from the corresponding element of `x` by at most
`eps`, and every element lies in `[clip_min, clip_max]`; and the same
budget/range/shape invariant on δ holds after every iteration of the loop,
not only at return. -/
theorem C1_shape_budget_range (cfg : Config) (env : Env) (x : Tensor)
    (y : List ℕ) (heps : 0 ≤ cfg.eps) (hclip : cfg.clip_min ≤ cfg.clip_max)
    (hx : inRange cfg.clip_min cfg.clip_max x)
    (hgrad : ∀ f p dg, env.grad f p = some dg → dims dg = dims x) :
    (∀ (alpha : ℚ) (k : ℕ) (s : St),
        runSteps cfg env alpha x y (initSt x) k = .ok s →
        dims s.delta = dims x ∧ inRange (-cfg.eps) cfg.eps s.delta ∧
        inRange cfg.clip_min cfg.clip_max (tadd x s.delta)) ∧
    (∀ (out : Tensor) (cfg1 : Config), forward cfg env x y = .ok (out, cfg1) →
        dims out = dims x ∧
        (∀ i j, i < x.length → j < (x.getD i []).length →
          |entry out i j - entry x i j| ≤ cfg.eps) ∧
        inRange cfg.clip_min cfg.clip_max out) := by
  have hrun : ∀ (alpha : ℚ) (k : ℕ) (s : St),
      runSteps cfg env alpha x y (initSt x) k = .ok s → Inv cfg x s :=
    fun alpha k s h => Inv_runSteps cfg env alpha x y heps hclip hx hgrad k _ s h
      (Inv_init cfg x heps hx)
  constructor
  · intro alpha k s h
    obtain ⟨_, _, hd, hb, hr⟩ := hrun alpha k s h
    exact ⟨hd, hb, hr⟩
  · intro out cfg1 h
    obtain ⟨a, s, _, hr, hout, _⟩ := forward_ok_inv h
    obtain ⟨_, _, hd, hb, hrange⟩ := hrun a cfg.steps s hr
    subst hout
    refine ⟨dims_tadd x s.delta hd.symm, ?_, hrange⟩
    intro i j hi' hj'
    have e1 : entry (tadd x s.delta) i j = entry x i j + entry s.delta i j :=
      entry_tmap2 _ x s.delta i j hd.symm hi' hj'
    have hsd := inRange_entry hb i j (lt_len hd.symm hi') (lt_row hd.symm hj')
    rw [e1, add_sub_cancel_left]
    exact abs_le.mpr ⟨hsd.1, hsd.2⟩

/-- Witness for C1 at the concrete fixtures. -/
theorem C1_shape_budget_range_witness :
    (0 ≤ cfgW.eps ∧ inRange cfgW.clip_min cfgW.clip_max xW) ∧
    (∀ (out : Tensor) (cfg1 : Config), forward cfgW envW xW yW = .ok (out, cfg1) →
        dims out = dims xW ∧
        (∀ i j, i < xW.length → j < (xW.getD i []).length →
          |entry out i j - entry xW i j| ≤ cfgW.eps) ∧
        inRange cfgW.clip_min cfgW.clip_max out) :=
  ⟨⟨by simp [cfgW], by simp [inRange, cfgW, xW]⟩,
    (C1_shape_budget_range cfgW envW xW yW (by simp [cfgW]) (by simp [cfgW])
      (by simp [inRange, cfgW, xW])
      (fun f p dg h => by
        simp only [envW] at h
        injection h with h1
        rw [← h1]
        rfl)).2⟩

/-- C6: an outer iteration whose backpropagation leaves the gradient with
respect to δ unavailable leaves the state (g, v, δ and the RNG position)
exactly unchanged and raises no error, but the iteration slot is still
consumed: with the gradient unavailable throughout, the loop still runs all
of its iterations to completion, for every iteration count, with no early
exit. -/
theorem C6_missing_gradient_skip (cfg : Config) (env : Env) (alpha : ℚ)
    (x : Tensor) (y : List ℕ) (s : St)
    (h : env.grad (lookLoss env cfg y)
      (tadd (tadd x s.delta) (tsmul (alpha * cfg.decay) s.g)) = none) :
    vniStep cfg env alpha x y s = .ok s ∧
    ((∀ f p, env.grad f p = none) →
      (∀ (k : ℕ) (s0 : St), runSteps cfg env alpha x y s0 k = .ok s0) ∧
      (∀ a, resolveAlpha cfg = .ok a →
        forward cfg env x y = .ok (x, { cfg with alpha := some a }))) := by
  refine ⟨vniStep_gradNone h, fun hall => ⟨?_, ?_⟩⟩
  · intro k
    induction k with
    | zero => intro s0; rfl
    | succ k ih =>
      intro s0
      unfold runSteps
      rw [vniStep_gradNone (hall _ _)]
      exact ih s0
  · intro a ha
    have hrun : ∀ (k : ℕ) (s0 : St), runSteps cfg env a x y s0 k = .ok s0 := by
      intro k
      induction k with
      | zero => intro s0; rfl
      | succ k ih =>
        intro s0
        unfold runSteps
        rw [vniStep_gradNone (hall _ _)]
        exact ih s0
    unfold forward
    simp only [ha, hrun cfg.steps (initSt x)]
    rw [show (initSt x).delta = zeros_like x from rfl, tadd_zeros_like]

/-- Witness for C6 at the concrete fixtures (oracle never yields a
gradient). -/
theorem C6_missing_gradient_skip_witness :
    envN.grad (lookLoss envN cfgW yW)
      (tadd (tadd xW (initSt xW).delta)
        (tsmul (0 * cfgW.decay) (initSt xW).g)) = none ∧
    vniStep cfgW envN 0 xW yW (initSt xW) = .ok (initSt xW) :=
  ⟨rfl, (C6_missing_gradient_skip cfgW envN 0 xW yW (initSt xW) rfl).1⟩

/-- C7 as stated is violated by the code: with a configuration whose `alpha`
is `None` and `steps = 0`, the defaulting assignment
`self.alpha = self.eps / self.steps` divides by zero, so the call raises
instead of returning the input batch. -/
theorem C7_zero_steps_cex :
    forward { cfgW with alpha := none, steps := 0 } envN xW yW =
      .error "ZeroDivisionError: float division by zero" := by
  simp [forward, resolveAlpha, cfgW]

/-- C7 amended: when `forward` is called with `steps = 0` and a
configuration whose `alpha` is not `None`, the returned batch equals the
original input batch exactly, with no perturbation applied and no error
raised (and the configuration is returned unchanged). -/
theorem C7_zero_steps_identity (cfg : Config) (env : Env) (x : Tensor)
    (y : List ℕ) (a : ℚ) (hsteps : cfg.steps = 0)
    (halpha : cfg.alpha = some a) :
    forward cfg env x y = .ok (x, cfg) := by
  have hcfg : ({ cfg with alpha := some a } : Config) = cfg := by
    cases cfg
    simp_all
  have hrs : runSteps cfg env a x y (initSt x) cfg.steps = .ok (initSt x) := by
    rw [hsteps]
    rfl
  unfold forward resolveAlpha
  simp only [halpha, hrs]
  rw [show (initSt x).delta = zeros_like x from rfl, tadd_zeros_like, hcfg]

/-- Witness for the amended C7 at the concrete fixtures. -/
theorem C7_zero_steps_identity_witness :
    ({ cfgW with steps := 0 } : Config).steps = 0 ∧
    forward { cfgW with steps := 0 } envN xW yW =
      .ok (xW, { cfgW with steps := 0 }) :=
  ⟨rfl, C7_zero_steps_identity { cfgW with steps := 0 } envN xW yW 0 rfl rfl⟩

/-- C8 as stated is violated by the code: when the stored `alpha` is `None`,
`forward` permanently overwrites it with `eps / steps`, so the
configuration after the call differs from the configuration before it. -/
theorem C8_config_mutation_cex :
    forward { cfgW with alpha := none } envN xW yW =
      .ok (xW, { cfgW with alpha := some 0 }) ∧
    ({ cfgW with alpha := none } : Config) ≠ { cfgW with alpha := some 0 } := by
  constructor
  · simp [forward, runSteps, vniStep, resolveAlpha, initSt, cfgW, envN, xW, yW,
      tadd, tmap2, tsmul, zeros_like, lookLoss]
  · simp [cfgW]

/-- C8 amended: `forward` leaves every configuration field other than
`alpha` unchanged; when `alpha` was already set the whole configuration
(including `alpha`) is unchanged, and when `alpha` was `None` it is
overwritten with `eps / steps`. -/
theorem C8_config_frame (cfg : Config) (env : Env) (x : Tensor) (y : List ℕ)
    (out : Tensor) (cfg1 : Config) (h : forward cfg env x y = .ok (out, cfg1)) :
    cfg1.eps = cfg.eps ∧ cfg1.steps = cfg.steps ∧ cfg1.decay = cfg.decay ∧
    cfg1.n = cfg.n ∧ cfg1.beta = cfg.beta ∧ cfg1.clip_min = cfg.clip_min ∧
    cfg1.clip_max = cfg.clip_max ∧ cfg1.targeted = cfg.targeted ∧
    (∀ a, cfg.alpha = some a → cfg1 = cfg) ∧
    (cfg.alpha = none → cfg1.alpha = some (cfg.eps / (cfg.steps : ℚ))) := by
  obtain ⟨a, s, ha, hr, hout, hcfg1⟩ := forward_ok_inv h
  subst hcfg1
  refine ⟨rfl, rfl, rfl, rfl, rfl, rfl, rfl, rfl, ?_, ?_⟩
  · intro a0 halpha
    unfold resolveAlpha at ha
    rw [halpha] at ha
    injection ha with ha1
    subst ha1
    cases cfg
    simp_all
  · intro halpha
    unfold resolveAlpha at ha
    rw [halpha] at ha
    by_cases h0 : cfg.steps = 0
    · rw [if_pos h0] at ha
      exact absurd ha (by simp)
    · rw [if_neg h0] at ha
      injection ha with ha1
      rw [← ha1]

/-- Witness for the amended C8 at the concrete fixtures. -/
theorem C8_config_frame_witness :
    forward cfgW envW xW yW = .ok (xW, cfgW) ∧
    (cfgW.eps = cfgW.eps ∧ cfgW.steps = cfgW.steps ∧
      cfgW.decay = cfgW.decay ∧ cfgW.n = cfgW.n ∧ cfgW.beta = cfgW.beta ∧
      cfgW.clip_min = cfgW.clip_min ∧ cfgW.clip_max = cfgW.clip_max ∧
      cfgW.targeted = cfgW.targeted ∧
      (∀ a, cfgW.alpha = some a → cfgW = cfgW) ∧
      (cfgW.alpha = none → cfgW.alpha = some (cfgW.eps / (cfgW.steps : ℚ)))) := by
  have hfw : forward cfgW envW xW yW = .ok (xW, cfgW) := by
    simp [forward, runSteps, vniStep, innerLoop, resolveAlpha, initSt, cfgW, envW,
      xW, yW, tadd, tsub, tmap2, tsmul, tdivs, tsign, qsign, tclamp, qclamp,
      divByRowMean, rowMeanAbs, zeros_like, lookLoss]
  exact ⟨hfw, C8_config_frame cfgW envW xW yW xW cfgW hfw⟩

/-- C2: in every outer iteration, the loss whose gradient drives the
momentum update is `lookLoss` — the cross-entropy of the model's output on
the transformed point against the labels, negated exactly when `targeted` —
differentiated at the Nesterov look-ahead point `x + δ + alpha·decay·g`;
the gradient `dg` obtained there is exactly the `delta_grad` entering the
momentum update. -/
theorem C2_lookahead_loss_gradient (cfg : Config) (env : Env) (alpha : ℚ)
    (x : Tensor) (y : List ℕ) (s s' : St) (dg : Tensor)
    (hg : env.grad (lookLoss env cfg y)
      (tadd (tadd x s.delta) (tsmul (alpha * cfg.decay) s.g)) = some dg)
    (hs : vniStep cfg env alpha x y s = .ok s') :
    (∀ p, lookLoss env cfg y p =
      if cfg.targeted then -(env.lossfn (env.model (env.transf p)) y)
      else env.lossfn (env.model (env.transf p)) y) ∧
    s'.g = tadd (tsmul cfg.decay s.g) (divByRowMean (tadd dg s.v)) := by
  obtain ⟨gv, k1, hin, hg', _⟩ := vniStep_ok_inv hg hs
  exact ⟨fun p => rfl, hg'⟩

/-- Witness for C2 at the concrete fixtures. -/
theorem C2_lookahead_loss_gradient_witness :
    envW.grad (lookLoss envW cfgW yW)
      (tadd (tadd xW (initSt xW).delta)
        (tsmul (0 * cfgW.decay) (initSt xW).g)) = some [[0]] ∧
    (⟨[[0]], [[0]], [[0]], 1⟩ : St).g =
      tadd (tsmul cfgW.decay (initSt xW).g)
        (divByRowMean (tadd [[0]] (initSt xW).v)) := by
  have hg : envW.grad (lookLoss envW cfgW yW)
      (tadd (tadd xW (initSt xW).delta)
        (tsmul (0 * cfgW.decay) (initSt xW).g)) = some [[0]] := rfl
  have hs : vniStep cfgW envW 0 xW yW (initSt xW) =
      .ok ⟨[[0]], [[0]], [[0]], 1⟩ := by
    simp [vniStep, innerLoop, initSt, cfgW, envW, xW, yW, tadd, tsub, tmap2,
      tsmul, tdivs, tsign, qsign, tclamp, qclamp, divByRowMean, rowMeanAbs,
      zeros_like, lookLoss]
  exact ⟨hg, (C2_lookahead_loss_gradient cfgW envW 0 xW yW (initSt xW)
    ⟨[[0]], [[0]], [[0]], 1⟩ [[0]] hg hs).2⟩

/-- C3: in every completed outer iteration the momentum becomes
`decay·g + (dg + v)/mean|dg + v|`: elementwise, entry (i, j) of the new
momentum is `decay·g[i][j] + (dg+v)[i][j] / rowMeanAbs((dg+v)[i])` — the
normalizer is the mean of the absolute values over all of batch element i's
entries (the channel/height/width dimensions), one normalizer per batch
element, independent of `j` (broadcast); the accumulator `v` is the one
carried from the previous iteration and is initially zero. -/
theorem C3_momentum_update (cfg : Config) (env : Env) (alpha : ℚ)
    (x : Tensor) (y : List ℕ) (s s' : St) (dg : Tensor)
    (hg : env.grad (lookLoss env cfg y)
      (tadd (tadd x s.delta) (tsmul (alpha * cfg.decay) s.g)) = some dg)
    (hs : vniStep cfg env alpha x y s = .ok s')
    (hdv : dims dg = dims s.v) (hgd : dims s.g = dims dg) :
    s'.g = tadd (tsmul cfg.decay s.g) (divByRowMean (tadd dg s.v)) ∧
    (∀ i j, i < s.g.length → j < ((s.g).getD i []).length →
      entry s'.g i j = cfg.decay * entry s.g i j +
        entry (tadd dg s.v) i j /
          ((((tadd dg s.v).getD i []).map fun a => |a|).sum /
            ((tadd dg s.v).getD i []).length)) ∧
    (initSt x).v = zeros_like x := by
  obtain ⟨gv, k1, hin, hg', _⟩ := vniStep_ok_inv hg hs
  exact ⟨hg',
    fun i j hi' hj' => momentum_entry hg hs hdv hgd i j hi' hj', rfl⟩

/-- Witness for C3 at the concrete fixtures. -/
theorem C3_momentum_update_witness :
    envW.grad (lookLoss envW cfgW yW)
      (tadd (tadd xW (initSt xW).delta)
        (tsmul (0 * cfgW.decay) (initSt xW).g)) = some [[0]] ∧
    (∀ i j, i < (initSt xW).g.length →
        j < (((initSt xW).g).getD i []).length →
      entry (⟨[[0]], [[0]], [[0]], 1⟩ : St).g i j =
        cfgW.decay * entry (initSt xW).g i j +
          entry (tadd [[0]] (initSt xW).v) i j /
            ((((tadd [[0]] (initSt xW).v).getD i []).map fun a => |a|).sum /
              ((tadd [[0]] (initSt xW).v).getD i []).length)) := by
  have hg : envW.grad (lookLoss envW cfgW yW)
      (tadd (tadd xW (initSt xW).delta)
        (tsmul (0 * cfgW.decay) (initSt xW).g)) = some [[0]] := rfl
  have hs : vniStep cfgW envW 0 xW yW (initSt xW) =
      .ok ⟨[[0]], [[0]], [[0]], 1⟩ := by
    simp [vniStep, innerLoop, initSt, cfgW, envW, xW, yW, tadd, tsub, tmap2,
      tsmul, tdivs, tsign, qsign, tclamp, qclamp, divByRowMean, rowMeanAbs,
      zeros_like, lookLoss]
  exact ⟨hg, (C3_momentum_update cfgW envW 0 xW yW (initSt xW)
    ⟨[[0]], [[0]], [[0]], 1⟩ [[0]] hg hs rfl rfl).2.1⟩

/-- C4: every completed outer iteration performs exactly `n` inner
repetitions: there is a list of exactly `n` neighbor gradients, the i-th
obtained by backpropagating the (sign-flipped when targeted) loss at
`x + neighbor` where the neighbor adds a fresh uniform draw from
`[-eps·beta, eps·beta]` to the current detached δ; the `n` gradients are
summed in order, the variance accumulator becomes
`(sum of neighbor gradients)/n − delta_grad`, and exactly `n` random draws
are consumed. -/
theorem C4_variance_sampling (cfg : Config) (env : Env) (alpha : ℚ)
    (x : Tensor) (y : List ℕ) (s s' : St) (dg : Tensor)
    (hg : env.grad (lookLoss env cfg y)
      (tadd (tadd x s.delta) (tsmul (alpha * cfg.decay) s.g)) = some dg)
    (hs : vniStep cfg env alpha x y s = .ok s') :
    ∃ gl : List Tensor, gl.length = cfg.n ∧
      (∀ i (hi : i < gl.length),
        env.grad (lookLoss env cfg y)
          (tadd x (tadd s.delta (env.uniform (-(cfg.eps * cfg.beta))
            (cfg.eps * cfg.beta) (s.rng + i)))) = some (gl.get ⟨i, hi⟩)) ∧
      s'.v = tsub (tdivs (gl.foldl tadd (zeros_like x)) (cfg.n : ℚ)) dg ∧
      s'.rng = s.rng + cfg.n := by
  obtain ⟨gv, k1, hin, _, hv', _, hrng'⟩ := vniStep_ok_inv hg hs
  obtain ⟨gl, hlen, hgrads, hres, hk⟩ :=
    innerLoop_ok cfg env x y s.delta cfg.n (zeros_like x) s.rng gv k1 hin
  exact ⟨gl, hlen, hgrads, by rw [hv', hres], by rw [hrng', hk]⟩

/-- Witness for C4 at the concrete fixtures. -/
theorem C4_variance_sampling_witness :
    envW.grad (lookLoss envW cfgW yW)
      (tadd (tadd xW (initSt xW).delta)
        (tsmul (0 * cfgW.decay) (initSt xW).g)) = some [[0]] ∧
    (∃ gl : List Tensor, gl.length = cfgW.n ∧
      (∀ i (hi : i < gl.length),
        envW.grad (lookLoss envW cfgW yW)
          (tadd xW (tadd (initSt xW).delta
            (envW.uniform (-(cfgW.eps * cfgW.beta))
              (cfgW.eps * cfgW.beta) ((initSt xW).rng + i)))) =
          some (gl.get ⟨i, hi⟩)) ∧
      (⟨[[0]], [[0]], [[0]], 1⟩ : St).v =
        tsub (tdivs (gl.foldl tadd (zeros_like xW)) (cfgW.n : ℚ)) [[0]] ∧
      (⟨[[0]], [[0]], [[0]], 1⟩ : St).rng = (initSt xW).rng + cfgW.n) := by
  have hg : envW.grad (lookLoss envW cfgW yW)
      (tadd (tadd xW (initSt xW).delta)
        (tsmul (0 * cfgW.decay) (initSt xW).g)) = some [[0]] := rfl
  have hs : vniStep cfgW envW 0 xW yW (initSt xW) =
      .ok ⟨[[0]], [[0]], [[0]], 1⟩ := by
    simp [vniStep, innerLoop, initSt, cfgW, envW, xW, yW, tadd, tsub, tmap2,
      tsmul, tdivs, tsign, qsign, tclamp, qclamp, divByRowMean, rowMeanAbs,
      zeros_like, lookLoss]
  exact ⟨hg, C4_variance_sampling cfgW envW 0 xW yW (initSt xW)
    ⟨[[0]], [[0]], [[0]], 1⟩ [[0]] hg hs⟩

/-- C5: in every completed outer iteration, δ is updated in exactly this
order: first `δ + alpha·sign(g)` with the just-updated momentum, then the
elementwise clamp of δ to `[-eps, eps]`, then the elementwise clamp of
`x + δ` to `[clip_min, clip_max]` with `x` subtracted back out; as a
consequence (for in-range `x` and agreeing shapes) the final δ of the
iteration keeps the perturbed image in the valid range. -/
theorem C5_delta_update_order (cfg : Config) (env : Env) (alpha : ℚ)
    (x : Tensor) (y : List ℕ) (s s' : St) (dg : Tensor)
    (hg : env.grad (lookLoss env cfg y)
      (tadd (tadd x s.delta) (tsmul (alpha * cfg.decay) s.g)) = some dg)
    (hs : vniStep cfg env alpha x y s = .ok s') :
    s'.delta = tsub (tclamp cfg.clip_min cfg.clip_max
      (tadd x (tclamp (-cfg.eps) cfg.eps
        (tadd s.delta (tsmul alpha (tsign s'.g)))))) x ∧
    (cfg.clip_min ≤ cfg.clip_max → dims s.delta = dims x →
      dims s'.g = dims x →
      inRange cfg.clip_min cfg.clip_max (tadd x s'.delta)) := by
  obtain ⟨gv, k1, hin, hg', hv', hdelta', _⟩ := vniStep_ok_inv hg hs
  refine ⟨hdelta', fun hclip hd hsg => ?_⟩
  have hd2 : dims (tclamp (-cfg.eps) cfg.eps
      (tadd s.delta (tsmul alpha (tsign s'.g)))) = dims x := by
    rw [dims_tclamp]
    have hts : dims (tsmul alpha (tsign s'.g)) = dims x :=
      ((dims_tsmul _ _).trans (dims_tsign _)).trans hsg
    exact (dims_tadd _ _ (hd.trans hts.symm)).trans hd
  have hC : dims (tclamp cfg.clip_min cfg.clip_max (tadd x
      (tclamp (-cfg.eps) cfg.eps
        (tadd s.delta (tsmul alpha (tsign s'.g)))))) = dims x :=
    (dims_tclamp _ _ _).trans (dims_tadd x _ hd2.symm)
  rw [hdelta', tadd_tsub_cancel x _ hC]
  exact inRange_tclamp _ _ _ hclip

/-- Witness for C5 at the concrete fixtures. -/
theorem C5_delta_update_order_witness :
    envW.grad (lookLoss envW cfgW yW)
      (tadd (tadd xW (initSt xW).delta)
        (tsmul (0 * cfgW.decay) (initSt xW).g)) = some [[0]] ∧
    (⟨[[0]], [[0]], [[0]], 1⟩ : St).delta =
      tsub (tclamp cfgW.clip_min cfgW.clip_max
        (tadd xW (tclamp (-cfgW.eps) cfgW.eps
          (tadd (initSt xW).delta
            (tsmul 0 (tsign (⟨[[0]], [[0]], [[0]], 1⟩ : St).g)))))) xW := by
  have hg : envW.grad (lookLoss envW cfgW yW)
      (tadd (tadd xW (initSt xW).delta)
        (tsmul (0 * cfgW.decay) (initSt xW).g)) = some [[0]] := rfl
  have hs : vniStep cfgW envW 0 xW yW (initSt xW) =
      .ok ⟨[[0]], [[0]], [[0]], 1⟩ := by
    simp [vniStep, innerLoop, initSt, cfgW, envW, xW, yW, tadd, tsub, tmap2,
      tsmul, tdivs, tsign, qsign, tclamp, qclamp, divByRowMean, rowMeanAbs,
      zeros_like, lookLoss]
  exact ⟨hg, (C5_delta_update_order cfgW envW 0 xW yW (initSt xW)
    ⟨[[0]], [[0]], [[0]], 1⟩ [[0]] hg hs).1⟩

/-- C9: the momentum normalization divides by the per-batch-element mean of
`|delta_grad + v|` with no zero guard: when that mean is zero for batch
element `i`, the iteration neither detects it, replaces it, nor raises — it
still succeeds, and elementwise the update performed for that element is
literally `decay·g[i][j] + (dg+v)[i][j] / 0` (the non-finite float result is
abstracted by ℚ division by zero in this model), and the resulting momentum
feeds the δ update and hence the returned batch through `sign(g)`. -/
theorem C9_no_zero_guard (cfg : Config) (env : Env) (alpha : ℚ)
    (x : Tensor) (y : List ℕ) (s s' : St) (dg : Tensor) (i : ℕ)
    (hg : env.grad (lookLoss env cfg y)
      (tadd (tadd x s.delta) (tsmul (alpha * cfg.decay) s.g)) = some dg)
    (hs : vniStep cfg env alpha x y s = .ok s')
    (hdv : dims dg = dims s.v) (hgd : dims s.g = dims dg)
    (hmean : rowMeanAbs ((tadd dg s.v).getD i []) = 0) :
    (∀ j, i < s.g.length → j < ((s.g).getD i []).length →
      entry s'.g i j = cfg.decay * entry s.g i j +
        entry (tadd dg s.v) i j / 0) ∧
    s'.delta = tsub (tclamp cfg.clip_min cfg.clip_max
      (tadd x (tclamp (-cfg.eps) cfg.eps
        (tadd s.delta (tsmul alpha (tsign s'.g)))))) x := by
  obtain ⟨gv, k1, hin, hg', hv', hdelta', _⟩ := vniStep_ok_inv hg hs
  refine ⟨fun j hi' hj' => ?_, hdelta'⟩
  rw [momentum_entry hg hs hdv hgd i j hi' hj', hmean]

/-- Witness for C9 at the concrete fixtures (the zero gradient has zero
mean absolute value). -/
theorem C9_no_zero_guard_witness :
    rowMeanAbs ((tadd [[0]] (initSt xW).v).getD 0 []) = 0 ∧
    (∀ j, 0 < (initSt xW).g.length →
        j < (((initSt xW).g).getD 0 []).length →
      entry (⟨[[0]], [[0]], [[0]], 1⟩ : St).g 0 j =
        cfgW.decay * entry (initSt xW).g 0 j +
          entry (tadd [[0]] (initSt xW).v) 0 j / 0) := by
  have hg : envW.grad (lookLoss envW cfgW yW)
      (tadd (tadd xW (initSt xW).delta)
        (tsmul (0 * cfgW.decay) (initSt xW).g)) = some [[0]] := rfl
  have hs : vniStep cfgW envW 0 xW yW (initSt xW) =
      .ok ⟨[[0]], [[0]], [[0]], 1⟩ := by
    simp [vniStep, innerLoop, initSt, cfgW, envW, xW, yW, tadd, tsub, tmap2,
      tsmul, tdivs, tsign, qsign, tclamp, qclamp, divByRowMean, rowMeanAbs,
      zeros_like, lookLoss]
  have hmean : rowMeanAbs ((tadd [[0]] (initSt xW).v).getD 0 []) = 0 := by
    simp [rowMeanAbs, initSt, xW, tadd, tmap2, zeros_like]
  exact ⟨hmean, (C9_no_zero_guard cfgW envW 0 xW yW (initSt xW)
    ⟨[[0]], [[0]], [[0]], 1⟩ [[0]] 0 hg hs rfl rfl hmean).1⟩

/-- C10: the silent-skip policy applies only to the outer look-ahead
gradient: if the look-ahead gradient is available but the first neighbor's
gradient inside the variance-sampling loop is unavailable after
backpropagation, accumulating it fails with a `TypeError` (the
`gv_grad += neighbors.grad` line) instead of skipping that sample — while
an outer iteration whose own look-ahead gradient is unavailable returns
with the state unchanged and no error. -/
theorem C10_inner_gradient_error (cfg : Config) (env : Env) (alpha : ℚ)
    (x : Tensor) (y : List ℕ) (s : St) (dg : Tensor)
    (hn : 1 ≤ cfg.n)
    (hg : env.grad (lookLoss env cfg y)
      (tadd (tadd x s.delta) (tsmul (alpha * cfg.decay) s.g)) = some dg)
    (hnb : env.grad (lookLoss env cfg y)
      (tadd x (tadd s.delta (env.uniform (-(cfg.eps * cfg.beta))
        (cfg.eps * cfg.beta) s.rng))) = none) :
    vniStep cfg env alpha x y s =
      .error "TypeError: unsupported operand type(s) for +=" ∧
    (∀ s0 : St, env.grad (lookLoss env cfg y)
      (tadd (tadd x s0.delta) (tsmul (alpha * cfg.decay) s0.g)) = none →
      vniStep cfg env alpha x y s0 = .ok s0) := by
  constructor
  · rw [vniStep_eq_of_grad hg]
    obtain ⟨m, hm⟩ : ∃ m, cfg.n = m + 1 := ⟨cfg.n - 1, by omega⟩
    rw [hm]
    unfold innerLoop
    simp only [hnb]
  · intro s0 h0
    exact vniStep_gradNone h0

/-- Witness for C10 at the concrete fixtures (gradient available at the
look-ahead point, unavailable at the displaced neighbor). -/
theorem C10_inner_gradient_error_witness :
    envP.grad (lookLoss envP cfgW yW)
      (tadd xW (tadd (initSt xW).delta
        (envP.uniform (-(cfgW.eps * cfgW.beta)) (cfgW.eps * cfgW.beta)
          (initSt xW).rng))) = none ∧
    vniStep cfgW envP 0 xW yW (initSt xW) =
      .error "TypeError: unsupported operand type(s) for +=" := by
  have hg : envP.grad (lookLoss envP cfgW yW)
      (tadd (tadd xW (initSt xW).delta)
        (tsmul (0 * cfgW.decay) (initSt xW).g)) = some [[0]] := by
    simp [envP, initSt, xW, cfgW, tadd, tmap2, tsmul, zeros_like]
  have hnb : envP.grad (lookLoss envP cfgW yW)
      (tadd xW (tadd (initSt xW).delta
        (envP.uniform (-(cfgW.eps * cfgW.beta)) (cfgW.eps * cfgW.beta)
          (initSt xW).rng))) = none := by
    simp [envP, initSt, xW, cfgW, tadd, tmap2, zeros_like]
  exact ⟨hnb, (C10_inner_gradient_error cfgW envP 0 xW yW (initSt xW) [[0]]
    (by simp [cfgW]) hg hnb).1⟩

end VNIFGSM
